import Mathlib

/-!
Verification development for the exercise-solutions notebook
(quantum-applications-to-finance/solutions/01_solutions.ipynb).

The notebook defines three exercise cells:
  * Exercise 1: a kernel initial_position applying x(qubits[2]) and h(qubits[3]).
  * Exercise 2: a numpy matrix decrementer(num_qubits) with
    dec_matrix[i, (i+1) % 2^n] = 1, registered as the custom operation DEC,
    and a check kernel applying DEC to the 4-qubit state |0001>.
  * Exercise 3: a quantum-walk step kernel DTQW_one_step combining the
    coin flip, boundary guards, controlled INC and DEC, and a final mz.

Quantum states on n qubits are shallowly embedded as amplitude functions
(Fin n -> Bool) -> C, with qubit 0 the most significant bit of the printed
bitstring (matching the notebook, where x(qubits[3]) prepares |0001>).
-/

open Matrix

instance neZeroTwoPow (n : ℕ) : NeZero (2 ^ n) := ⟨pow_ne_zero n (by norm_num)⟩

/-- The decrementer matrix built by the notebook function decrementer(num_qubits):
a 2^n-by-2^n numpy array of zeros with dec_matrix[i, (i + 1) % size] = 1 for every
row i (numpy float entries are modelled as real numbers). -/
noncomputable def decrementer (n : ℕ) : Matrix (Fin (2 ^ n)) (Fin (2 ^ n)) ℝ :=
  Matrix.of fun i j => if (j : ℕ) = ((i : ℕ) + 1) % 2 ^ n then 1 else 0

/-- The standard basis column vector with a single 1 at index i. -/
noncomputable def basisVec {m : ℕ} (i : Fin m) : Fin m → ℝ :=
  fun j => if j = i then 1 else 0

/-- The registered DEC operation is the matrix decrementer(4); stated over
Fin 16 (definitionally 2 ^ 4) for use with the 4-bit walker index. -/
noncomputable def DECmatrix : Matrix (Fin 16) (Fin 16) ℝ := decrementer 4

/-- State of an n-qubit register: an amplitude for every assignment of the
n qubits, qubit 0 being the leftmost bit of the printed bitstring. -/
def QState (n : ℕ) : Type := (Fin n → Bool) → ℂ

/-- Total probability of a state: the sum of the squared magnitudes of all
its amplitudes. -/
noncomputable def norm2 {n : ℕ} (v : QState n) : ℝ :=
  ∑ b : Fin n → Bool, Complex.normSq (v b)

/-- Flip the bit of qubit q in a basis-state label. -/
def flipBit {n : ℕ} (q : Fin n) (b : Fin n → Bool) : Fin n → Bool :=
  Function.update b q (!(b q))

/-- The x gate on qubit q (the framework gate x(qubits[q])): it permutes the
basis states by flipping bit q. -/
def applyX {n : ℕ} (q : Fin n) (v : QState n) : QState n :=
  fun b => v (flipBit q b)

/-- The h gate on qubit q (the framework gate h(qubits[q])): the Hadamard
matrix (1/sqrt 2) [[1, 1], [1, -1]] acting on bit q. -/
noncomputable def applyH {n : ℕ} (q : Fin n) (v : QState n) : QState n :=
  fun b =>
    (v (Function.update b q false) + cond (b q) (-1) 1 * v (Function.update b q true)) /
      (Real.sqrt 2 : ℂ)

/-- Flipping a bit twice, as an equivalence of basis-state labels. -/
def flipEquiv {n : ℕ} (q : Fin n) : (Fin n → Bool) ≃ (Fin n → Bool) where
  toFun := flipBit q
  invFun := flipBit q
  left_inv b := by
    simp [flipBit, Function.update_idem, Function.update_same, Bool.not_not,
      Function.update_eq_self]
  right_inv b := by
    simp [flipBit, Function.update_idem, Function.update_same, Bool.not_not,
      Function.update_eq_self]

/-- A single-qubit gate invocation of the notebook kernels: the framework
gates x(qubits[q]) and h(qubits[q]). -/
inductive SQGate : Type
  | gX (q : ℕ)
  | gH (q : ℕ)
deriving DecidableEq

/-- Interpret a single-qubit gate invocation on an n-qubit register (the qubit
index is reduced mod n by the Fin coercion; all indices used are in range). -/
noncomputable def applySQGate {n : ℕ} [NeZero n] : SQGate → QState n → QState n
  | SQGate.gX q, v => applyX (q : Fin n) v
  | SQGate.gH q, v => applyH (q : Fin n) v

/-- Interpret a list of gate invocations in order. -/
noncomputable def applySQGates {n : ℕ} [NeZero n] (ops : List SQGate) (v : QState n) :
    QState n :=
  ops.foldl (fun s g => applySQGate g s) v

/-- The gate list of the kernel initial_position: x(qubits[2]) then h(qubits[3]). -/
def initial_position_ops : List SQGate := [SQGate.gX 2, SQGate.gH 3]

/-- The kernel initial_position, as the interpretation of its gate list. -/
noncomputable def initial_position {n : ℕ} [NeZero n] : QState n → QState n :=
  applySQGates initial_position_ops

/-- The all-zero computational basis state of an n-qubit register (every fresh
cudaq.qvector starts in this state). -/
noncomputable def allZero {n : ℕ} : QState n :=
  fun b => if b = (fun _ => false) then 1 else 0

/-- The basis-state label |0010> (only qubit 2 set). -/
def b0010 : Fin 4 → Bool := ![false, false, true, false]

/-- The basis-state label |0011> (qubits 2 and 3 set). -/
def b0011 : Fin 4 → Bool := ![false, false, true, true]

/-- The basis index of a 4-qubit label, qubit 0 most significant, matching the
column ordering of the registered DEC matrix (x(qubits[3]) prepares |0001>,
which DEC must send to |0000>, i.e. index 1 to index 0). -/
def idx4 (b : Fin 4 → Bool) : Fin 16 :=
  ⟨8 * (b 0).toNat + 4 * (b 1).toNat + 2 * (b 2).toNat + (b 3).toNat, by
    have h0 := Bool.toNat_le (b 0)
    have h1 := Bool.toNat_le (b 1)
    have h2 := Bool.toNat_le (b 2)
    have h3 := Bool.toNat_le (b 3)
    omega⟩

/-- The 4-qubit label of a basis index, inverse of idx4. -/
def set4 (k : Fin 16) : Fin 4 → Bool :=
  fun i =>
    if i = 0 then (k : ℕ).testBit 3
    else if i = 1 then (k : ℕ).testBit 2
    else if i = 2 then (k : ℕ).testBit 1
    else (k : ℕ).testBit 0

/-- The DEC operation applied to all four qubits of the check kernel: the
matrix decrementer(4) acting on basis indices, i.e. the new amplitude at
index i is the old amplitude at index (i + 1) mod 16 (row i of the matrix
has its single 1 in column (i + 1) mod 16). -/
def applyDEC4 (v : QState 4) : QState 4 :=
  fun b => v (set4 (idx4 b + 1))

/-- The final state of check_decrementer_kernel: start at |0000>, apply
x(qubits[3]) to reach |0001>, then apply DEC. -/
noncomputable def checkFinalState : QState 4 :=
  applyDEC4 (applyX (3 : Fin 4) allZero)

/-- Probability of measuring the 4-bit string b when sampling a 4-qubit state
(the check kernel has no explicit measurement, so all four qubits are
measured). -/
noncomputable def measProb4 (v : QState 4) (b : Fin 4 → Bool) : ℝ :=
  Complex.normSq (v b)

/-- The coin qubit of DTQW_one_step: allocated right after the num_qubits = 4
walker qubits, so it is qubit 4 of the 6-qubit register. -/
def coinQubit : Fin 6 := 4

/-- The endpoint qubit of DTQW_one_step: qubit 5 of the 6-qubit register. -/
def endpointQubit : Fin 6 := 5

/-- The walker basis index (bits 0-3, qubit 0 most significant) of a 6-qubit
basis-state label. -/
def walkerIdx (b : Fin 6 → Bool) : Fin 16 :=
  ⟨8 * (b 0).toNat + 4 * (b 1).toNat + 2 * (b 2).toNat + (b 3).toNat, by
    have h0 := Bool.toNat_le (b 0)
    have h1 := Bool.toNat_le (b 1)
    have h2 := Bool.toNat_le (b 2)
    have h3 := Bool.toNat_le (b 3)
    omega⟩

/-- Replace the walker bits of a 6-qubit basis-state label by the bits of the
given walker index, keeping the coin and endpoint bits. -/
def walkerSet (b : Fin 6 → Bool) (k : Fin 16) : Fin 6 → Bool :=
  fun i =>
    if i = 0 then (k : ℕ).testBit 3
    else if i = 1 then (k : ℕ).testBit 2
    else if i = 2 then (k : ℕ).testBit 1
    else if i = 3 then (k : ℕ).testBit 0
    else b i

/-- Basis-state reindexing of DEC.ctrl(coin_qubit, walker_qubits[0..3]): on the
coin |1> component the new amplitude at walker index i is the old one at
(i + 1) mod 16 (row i of decrementer(4)); on the coin |0> component nothing
happens. -/
def gDecCtrl (b : Fin 6 → Bool) : Fin 6 → Bool :=
  if b coinQubit then walkerSet b (walkerIdx b + 1) else b

/-- Basis-state reindexing of INC.ctrl(coin_qubit, walker_qubits[0..3]). -/
def gIncCtrl (b : Fin 6 → Bool) : Fin 6 → Bool :=
  if b coinQubit then walkerSet b (walkerIdx b - 1) else b

/-- The coin-controlled DEC operation on the 6-qubit state. -/
def applyDECctrl (v : QState 6) : QState 6 :=
  fun b => v (gDecCtrl b)

/-- Modelled from the spec: the INC operation is registered outside these
sources; the notebook comments describe it as the shift right S+, the inverse
of DEC, sending walker basis index i to (i + 1) mod 16. Its coin-controlled
application reindexes basis states accordingly. -/
def applyINCctrl (v : QState 6) : QState 6 :=
  fun b => v (gIncCtrl b)

/-- The coin-controlled DEC reindexing as an equivalence of basis-state labels
(with the coin-controlled INC reindexing as its inverse). -/
def decCtrlEquiv : (Fin 6 → Bool) ≃ (Fin 6 → Bool) where
  toFun := gDecCtrl
  invFun := gIncCtrl
  left_inv := fun b => (by decide : ∀ c, gIncCtrl (gDecCtrl c) = c) b
  right_inv := fun b => (by decide : ∀ c, gDecCtrl (gIncCtrl c) = c) b

/-- Modelled from the spec: the kernels no_INC_at_right_endpoint,
no_DEC_at_left_endpoint and reset_coin_and_endpoint are defined outside these
sources; the spec describes them as the boundary-guard logic of the walk step
(gate sequences on the walker, coin and endpoint qubits). They are modelled as
arbitrary state transformations; the unitarity theorem assumes only that each
preserves total probability, as every gate sequence does. -/
structure WalkEnv : Type where
  guardR : QState 6 → QState 6
  guardL : QState 6 → QState 6
  resetCE : QState 6 → QState 6

/-- The operations of the kernel DTQW_one_step, in source order. -/
inductive WalkOp : Type
  | initPos
  | hCoinInit
  | coinOp
  | guardRight
  | incCtrl
  | resetA
  | guardLeft
  | xCoinA
  | decCtrl
  | xCoinB
  | resetB
  | mzWalker
deriving DecidableEq, BEq

/-- The body of DTQW_one_step as its list of operations: initial_position on
the walker qubits, h(coin_qubit) for the initial coin state, then the walk step
(coin operation h, no_INC_at_right_endpoint, INC.ctrl, reset_coin_and_endpoint,
no_DEC_at_left_endpoint, x(coin_qubit), DEC.ctrl, x(coin_qubit),
reset_coin_and_endpoint), and finally mz(walker_qubits). -/
def DTQW_ops : List WalkOp :=
  [WalkOp.initPos, WalkOp.hCoinInit, WalkOp.coinOp, WalkOp.guardRight,
   WalkOp.incCtrl, WalkOp.resetA, WalkOp.guardLeft, WalkOp.xCoinA,
   WalkOp.decCtrl, WalkOp.xCoinB, WalkOp.resetB, WalkOp.mzWalker]

/-- Interpretation of one operation of DTQW_one_step on the 6-qubit state.
The final measurement mz is not a linear gate and is modelled separately, so
the pre-measurement operator of the kernel is the fold over DTQW_ops.dropLast;
the mzWalker case is interpreted as the identity placeholder. -/
noncomputable def walkOpDenote (env : WalkEnv) : WalkOp → QState 6 → QState 6
  | WalkOp.initPos => initial_position
  | WalkOp.hCoinInit => applyH coinQubit
  | WalkOp.coinOp => applyH coinQubit
  | WalkOp.guardRight => env.guardR
  | WalkOp.incCtrl => applyINCctrl
  | WalkOp.resetA => env.resetCE
  | WalkOp.guardLeft => env.guardL
  | WalkOp.xCoinA => applyX coinQubit
  | WalkOp.decCtrl => applyDECctrl
  | WalkOp.xCoinB => applyX coinQubit
  | WalkOp.resetB => env.resetCE
  | WalkOp.mzWalker => id

/-- Interpret a list of DTQW_one_step operations in order. -/
noncomputable def applyWalkOps (env : WalkEnv) (ops : List WalkOp) (v : QState 6) :
    QState 6 :=
  ops.foldl (fun s op => walkOpDenote env op s) v

/-- The trivial interpretation of the modelled kernels (each the identity),
used to instantiate the unitarity theorem at a concrete input. -/
def idWalkEnv : WalkEnv := ⟨id, id, id⟩

/-- The qubits measured by DTQW_one_step: mz(walker_qubits) measures exactly
the num_qubits = 4 walker qubits, not the coin or endpoint qubit. -/
def mzTargets : List (Fin 6) := [0, 1, 2, 3]

/-- A measurement outcome of DTQW_one_step: one bit per measured walker qubit. -/
abbrev WalkerOutcome : Type := Fin mzTargets.length → Bool

/-- The sampling histogram: given the outcomes of s shots, the count recorded
for the 4-bit string k. -/
def histogram (s : ℕ) (shots : Fin s → WalkerOutcome) (k : WalkerOutcome) : ℕ :=
  (Finset.univ.filter fun t => shots t = k).card

/-- The Python names read or bound by the top-level statements of the three
exercise cells (gateX, gateH, gateMz are the framework gates x, h, mz; prnt is
the builtin print). -/
inductive PyName : Type
  | cudaq
  | np
  | gateX
  | gateH
  | gateMz
  | prnt
  | plotResults
  | initialPosition
  | decrementer
  | numQubits
  | DEC
  | checkDecrementerKernel
  | INC
  | noINCatRightEndpoint
  | resetCoinAndEndpoint
  | noDECatLeftEndpoint
  | DTQWoneStep
  | result
deriving DecidableEq

/-- A top-level statement of a notebook cell, abstracted to the global names
it reads when evaluated and the global names its evaluation binds. -/
structure PyStmt : Type where
  reads : List PyName
  binds : List PyName
deriving DecidableEq

/-- The first name a statement reads that is not bound in the environment. -/
def firstUnbound (env : List PyName) (reads : List PyName) : Option PyName :=
  reads.find? fun nm => !(decide (nm ∈ env))

/-- Run the statements of one cell in order from the j-th statement: evaluation
stops with an unbound-name error (statement index and name) at the first
statement reading a name not in the environment, and otherwise accumulates
bindings. -/
def runStmtsFrom (env : List PyName) (j : ℕ) : List PyStmt → Except (ℕ × PyName) (List PyName)
  | [] => Except.ok env
  | st :: rest =>
    match firstUnbound env st.reads with
    | some nm => Except.error (j, nm)
    | none => runStmtsFrom (env ++ st.binds) (j + 1) rest

/-- Run the cells in order from the i-th cell, stopping at the first
unbound-name error (cell index, statement index, name). -/
def runCellsFrom (env : List PyName) (i : ℕ) :
    List (List PyStmt) → Except (ℕ × ℕ × PyName) (List PyName)
  | [] => Except.ok env
  | c :: rest =>
    match runStmtsFrom env 0 c with
    | Except.error (j, nm) => Except.error (i, j, nm)
    | Except.ok env2 => runCellsFrom env2 (i + 1) rest

/-- The Exercise 1 cell: one statement, the decorated kernel definition of
initial_position (the decorator compiles the body, reading cudaq and the gate
names x and h). -/
def exercise1 : List PyStmt :=
  [⟨[PyName.cudaq, PyName.gateX, PyName.gateH], [PyName.initialPosition]⟩]

/-- The Exercise 2 cell: the def of decrementer; the call
cudaq.register_operation("DEC", decrementer(num_qubits)) (reading cudaq, np
inside the called body, decrementer and num_qubits, and binding the registered
operation DEC); the decorated kernel definition of check_decrementer_kernel;
the sample call bound to result; and the print of result. -/
def exercise2 : List PyStmt :=
  [⟨[], [PyName.decrementer]⟩,
   ⟨[PyName.cudaq, PyName.np, PyName.decrementer, PyName.numQubits], [PyName.DEC]⟩,
   ⟨[PyName.cudaq, PyName.gateX, PyName.DEC], [PyName.checkDecrementerKernel]⟩,
   ⟨[PyName.cudaq, PyName.checkDecrementerKernel], [PyName.result]⟩,
   ⟨[PyName.prnt, PyName.result], []⟩]

/-- The Exercise 3 cell: the assignment num_qubits = 4; the decorated kernel
definition of DTQW_one_step (whose compiled body reads initial_position, the
gates, the helper kernels, INC and DEC); the sample call bound to result; the
print of result; and the plot_results call. -/
def exercise3 : List PyStmt :=
  [⟨[], [PyName.numQubits]⟩,
   ⟨[PyName.cudaq, PyName.initialPosition, PyName.gateH, PyName.gateX, PyName.gateMz,
     PyName.noINCatRightEndpoint, PyName.INC, PyName.resetCoinAndEndpoint,
     PyName.noDECatLeftEndpoint, PyName.DEC], [PyName.DTQWoneStep]⟩,
   ⟨[PyName.cudaq, PyName.DTQWoneStep, PyName.numQubits], [PyName.result]⟩,
   ⟨[PyName.prnt, PyName.result], []⟩,
   ⟨[PyName.plotResults, PyName.result, PyName.numQubits], []⟩]

/-- Modelled from the spec: the bindings available from the external framework
and companion material before any exercise cell runs (cudaq, numpy, the gate
names, print, and the companion-notebook helper kernels INC,
no_INC_at_right_endpoint, reset_coin_and_endpoint, no_DEC_at_left_endpoint and
plot_results, which are not defined by these sources). -/
def frameworkEnv : List PyName :=
  [PyName.cudaq, PyName.np, PyName.gateX, PyName.gateH, PyName.gateMz, PyName.prnt,
   PyName.plotResults, PyName.INC, PyName.noINCatRightEndpoint,
   PyName.resetCoinAndEndpoint, PyName.noDECatLeftEndpoint]

/-- The three exercise cells in notebook order. -/
def notebookCells : List (List PyStmt) := [exercise1, exercise2, exercise3]

/-- Running the whole notebook top to bottom from the framework bindings. -/
def runNotebook : Except (ℕ × ℕ × PyName) (List PyName) :=
  runCellsFrom frameworkEnv 0 notebookCells

/-- All names bound by the statements of a cell. -/
def cellBinds (c : List PyStmt) : List PyName :=
  c.foldr (fun st acc => st.binds ++ acc) []

/-- The names a cell needs from outside: names read by some statement of the
cell and not bound by an earlier statement of the same cell (bound is the list
of names already bound within the cell). -/
def cellNeedsFrom (bound : List PyName) : List PyStmt → List PyName
  | [] => []
  | st :: rest =>
    st.reads.filter (fun nm => !(decide (nm ∈ bound))) ++
      cellNeedsFrom (bound ++ st.binds) rest

/-- The names a cell reads without binding them first itself. -/
def cellNeeds (c : List PyStmt) : List PyName := cellNeedsFrom [] c

/-- Whether a run result is a successful environment. -/
def runOk {ε α : Type} (e : Except ε α) : Bool :=
  match e with
  | Except.ok _ => true
  | Except.error _ => false

/-- The three exercise cells indexed for the independence statement. -/
def cellsArr : Fin 3 → List PyStmt := ![exercise1, exercise2, exercise3]

/-- The independence property claimed of the notebook: no exercise cell reads
a name (other than one it has itself bound earlier in the cell) that a
different exercise cell binds, so every cell evaluates on its own from the
framework bindings without an unbound-name failure. -/
def exerciseCellsIndependent : Prop :=
  (∀ i j : Fin 3, i ≠ j → ∀ nm ∈ cellNeeds (cellsArr i), nm ∉ cellBinds (cellsArr j)) ∧
  (∀ i : Fin 3, runOk (runStmtsFrom frameworkEnv 0 (cellsArr i)) = true)

theorem val_add_one_mod {m : ℕ} [NeZero m] (i : Fin m) :
    ((i + 1 : Fin m) : ℕ) = ((i : ℕ) + 1) % m := by
  rw [Fin.val_add, Fin.val_one']
  conv_rhs => rw [Nat.add_mod]
  rw [Nat.add_mod (i : ℕ) (1 % m) m, Nat.mod_mod_of_dvd _ dvd_rfl]

theorem decrementer_entry (n : ℕ) (i j : Fin (2 ^ n)) :
    decrementer n i j = if (j : ℕ) = ((i : ℕ) + 1) % 2 ^ n then 1 else 0 := rfl

theorem decrementer_ite (n : ℕ) (i j : Fin (2 ^ n)) :
    decrementer n i j = if j = i + 1 then 1 else 0 := by
  rw [decrementer_entry]
  refine if_congr ?_ rfl rfl
  rw [Fin.ext_iff, val_add_one_mod]

theorem decrementer_mulVec_basis (n : ℕ) (i : Fin (2 ^ n)) :
    (decrementer n).mulVec (basisVec i) = basisVec (i - 1) := by
  funext r
  have h1 : (decrementer n).mulVec (basisVec i) r = decrementer n r i := by
    simp [Matrix.mulVec, dotProduct, basisVec, mul_ite, mul_one, mul_zero]
  rw [h1, decrementer_ite, basisVec]
  refine if_congr ?_ rfl rfl
  constructor
  · rintro rfl
    rw [add_sub_cancel_right]
  · rintro rfl
    rw [sub_add_cancel]

theorem fin_sub_one_val (n : ℕ) (i : Fin (2 ^ n)) :
    ((i - 1 : Fin (2 ^ n)) : ℕ) = ((i : ℕ) + 2 ^ n - 1) % 2 ^ n := by
  rcases n with - | k
  · revert i
    decide
  · rw [Fin.sub_def]
    have h2 : 2 ≤ 2 ^ (k + 1) := by
      calc 2 = 2 ^ 1 := rfl
      _ ≤ 2 ^ (k + 1) := Nat.pow_le_pow_right (by norm_num) (by omega)
    have hone : ((1 : Fin (2 ^ (k + 1))) : ℕ) = 1 := by
      rw [Fin.val_one']
      exact Nat.mod_eq_of_lt (by omega)
    simp only [hone]
    congr 1
    omega

theorem decrementer_row_unique (n : ℕ) (i : Fin (2 ^ n)) :
    ∃! j, decrementer n i j = 1 := by
  refine ⟨i + 1, ?_, ?_⟩
  · show decrementer n i (i + 1) = 1
    rw [decrementer_ite, if_pos rfl]
  · intro y hy
    rw [decrementer_ite] at hy
    by_contra hne
    rw [if_neg hne] at hy
    exact zero_ne_one hy

theorem decrementer_col_unique (n : ℕ) (j : Fin (2 ^ n)) :
    ∃! i, decrementer n i j = 1 := by
  refine ⟨j - 1, ?_, ?_⟩
  · show decrementer n (j - 1) j = 1
    rw [decrementer_ite, if_pos (by rw [sub_add_cancel])]
  · intro y hy
    rw [decrementer_ite] at hy
    by_cases hc : j = y + 1
    · rw [hc, add_sub_cancel_right]
    · rw [if_neg hc] at hy
      exact absurd hy zero_ne_one

theorem decrementer_zero_one (n : ℕ) (i j : Fin (2 ^ n)) :
    decrementer n i j = 0 ∨ decrementer n i j = 1 := by
  rw [decrementer_entry]
  split
  · exact Or.inr rfl
  · exact Or.inl rfl

theorem decrementer_transpose_mul (n : ℕ) :
    (decrementer n)ᵀ * decrementer n = 1 := by
  ext i j
  rw [Matrix.mul_apply, Matrix.one_apply]
  have hterm : ∀ k, (decrementer n)ᵀ i k * decrementer n k j
      = if k = i - 1 then (if j = k + 1 then (1 : ℝ) else 0) else 0 := by
    intro k
    rw [Matrix.transpose_apply, decrementer_ite, decrementer_ite]
    by_cases hk : k = i - 1
    · subst hk
      rw [if_pos rfl, if_pos (by rw [sub_add_cancel]), one_mul]
    · rw [if_neg hk, if_neg ?_, zero_mul]
      intro hik
      exact hk (by rw [hik, add_sub_cancel_right])
  rw [Finset.sum_congr rfl fun k _ => hterm k, Finset.sum_ite_eq' Finset.univ (i - 1)]
  rw [if_pos (Finset.mem_univ _)]
  refine if_congr ?_ rfl rfl
  rw [sub_add_cancel, eq_comm]

theorem decrementer_transpose_mulVec (n : ℕ) (i : Fin (2 ^ n)) :
    (decrementer n)ᵀ.mulVec (basisVec i) = basisVec (i + 1) := by
  funext r
  have h1 : (decrementer n)ᵀ.mulVec (basisVec i) r = decrementer n i r := by
    simp [Matrix.mulVec, dotProduct, basisVec, Matrix.transpose_apply,
      mul_ite, mul_one, mul_zero]
  rw [h1, decrementer_ite, basisVec]

/-- C1: for every n >= 0, decrementer(n) is a 2^n-by-2^n matrix with all entries
0 or 1, exactly one 1 in every row and in every column, and left multiplication
sends the standard basis vector of index i to the one of index (i - 1) mod 2^n
(Fin subtraction; the last clause spells out its value). -/
theorem decrementer_cyclic_permutation (n : ℕ) :
    (∀ i j, decrementer n i j = 0 ∨ decrementer n i j = 1) ∧
    (∀ i, ∃! j, decrementer n i j = 1) ∧
    (∀ j, ∃! i, decrementer n i j = 1) ∧
    (∀ i, (decrementer n).mulVec (basisVec i) = basisVec (i - 1) ∧
      ((i - 1 : Fin (2 ^ n)) : ℕ) = ((i : ℕ) + 2 ^ n - 1) % 2 ^ n) :=
  ⟨decrementer_zero_one n, decrementer_row_unique n, decrementer_col_unique n,
    fun i => ⟨decrementer_mulVec_basis n i, fin_sub_one_val n i⟩⟩

/-- C10: the transpose of decrementer(n) is its inverse (so DEC is real
orthogonal, hence unitary), and the transpose acts as the incrementer,
sending the basis vector of index i to the one of index (i + 1) mod 2^n. -/
theorem decrementer_transpose_inverse (n : ℕ) :
    (decrementer n)ᵀ * decrementer n = 1 ∧
    (∀ i, (decrementer n)ᵀ.mulVec (basisVec i) = basisVec (i + 1) ∧
      ((i + 1 : Fin (2 ^ n)) : ℕ) = ((i : ℕ) + 1) % 2 ^ n) :=
  ⟨decrementer_transpose_mul n,
    fun i => ⟨decrementer_transpose_mulVec n i, val_add_one_mod i⟩⟩

theorem norm2_comp_equiv {n : ℕ} (e : (Fin n → Bool) ≃ (Fin n → Bool)) (v : QState n) :
    norm2 (fun b => v (e b)) = norm2 v :=
  Fintype.sum_equiv e _ _ (fun _ => rfl)

theorem norm2_applyX {n : ℕ} (q : Fin n) (v : QState n) :
    norm2 (applyX q v) = norm2 v :=
  norm2_comp_equiv (flipEquiv q) v

theorem normSq_add_sub_div_sqrt_two (a c : ℂ) :
    Complex.normSq ((a + c) / (Real.sqrt 2 : ℂ)) +
      Complex.normSq ((a - c) / (Real.sqrt 2 : ℂ)) =
    Complex.normSq a + Complex.normSq c := by
  have hs : Complex.normSq (Real.sqrt 2 : ℂ) = 2 := by
    rw [Complex.normSq_ofReal, Real.mul_self_sqrt (by norm_num)]
  rw [map_div₀, map_div₀, hs, div_add_div_same, div_eq_iff (by norm_num : (2:ℝ) ≠ 0)]
  simp only [Complex.normSq_apply, Complex.add_re, Complex.add_im, Complex.sub_re,
    Complex.sub_im]
  ring

theorem norm2_applyH {n : ℕ} (q : Fin n) (v : QState n) :
    norm2 (applyH q v) = norm2 v := by
  have hpt : ∀ b, Complex.normSq (applyH q v b) + Complex.normSq (applyH q v (flipBit q b))
      = Complex.normSq (v b) + Complex.normSq (v (flipBit q b)) := by
    intro b
    cases hb : b q
    · have h0 : Function.update b q false = b := by
        conv_lhs => rw [← hb]
        exact Function.update_eq_self q b
      have hflip : flipBit q b = Function.update b q true := by
        rw [flipBit, hb]
        rfl
      have hA : applyH q v b = (v b + v (Function.update b q true)) / (Real.sqrt 2 : ℂ) := by
        rw [applyH, h0, hb]
        simp
      have hB : applyH q v (flipBit q b)
          = (v b - v (Function.update b q true)) / (Real.sqrt 2 : ℂ) := by
        rw [applyH, hflip, Function.update_idem, h0, Function.update_idem,
          Function.update_same]
        simp [sub_eq_add_neg]
      rw [hA, hB, hflip, normSq_add_sub_div_sqrt_two]
    · have h1 : Function.update b q true = b := by
        conv_lhs => rw [← hb]
        exact Function.update_eq_self q b
      have hflip : flipBit q b = Function.update b q false := by
        rw [flipBit, hb]
        rfl
      have hA : applyH q v b
          = (v (Function.update b q false) - v b) / (Real.sqrt 2 : ℂ) := by
        rw [applyH, h1, hb]
        simp [sub_eq_add_neg]
      have hB : applyH q v (flipBit q b)
          = (v (Function.update b q false) + v b) / (Real.sqrt 2 : ℂ) := by
        rw [applyH, hflip, Function.update_idem, Function.update_idem,
          Function.update_same, h1]
        simp
      rw [hA, hB, hflip,
        add_comm (Complex.normSq ((v (Function.update b q false) - v b) / (Real.sqrt 2 : ℂ))),
        normSq_add_sub_div_sqrt_two, add_comm]
  have hflipsum : ∀ w : QState n, norm2 (fun b => w (flipBit q b)) = norm2 w :=
    fun w => norm2_comp_equiv (flipEquiv q) w
  have h2 : norm2 (applyH q v) + norm2 (applyH q v) = norm2 v + norm2 v := by
    calc norm2 (applyH q v) + norm2 (applyH q v)
        = norm2 (applyH q v) + norm2 (fun b => applyH q v (flipBit q b)) := by
          rw [hflipsum (applyH q v)]
      _ = ∑ b : Fin n → Bool, (Complex.normSq (applyH q v b)
            + Complex.normSq (applyH q v (flipBit q b))) := by
          rw [norm2, norm2, ← Finset.sum_add_distrib]
      _ = ∑ b : Fin n → Bool, (Complex.normSq (v b) + Complex.normSq (v (flipBit q b))) :=
          Finset.sum_congr rfl (fun b _ => hpt b)
      _ = norm2 v + norm2 (fun b => v (flipBit q b)) := by
          rw [norm2, norm2, ← Finset.sum_add_distrib]
      _ = norm2 v + norm2 v := by rw [hflipsum v]
  linarith

theorem DECmatrix_ite (i j : Fin 16) : DECmatrix i j = if j = i + 1 then 1 else 0 :=
  decrementer_ite 4 i j

theorem sum_DECmatrix_mul (w : Fin 16) (f : Fin 16 → ℂ) :
    ∑ j, (DECmatrix w j : ℂ) * f j = f (w + 1) := by
  have hterm : ∀ j, ((DECmatrix w j : ℝ) : ℂ) * f j = if j = w + 1 then f j else 0 := by
    intro j
    rw [DECmatrix_ite]
    split
    · simp
    · simp
  rw [Finset.sum_congr rfl fun j _ => hterm j, Finset.sum_ite_eq' Finset.univ (w + 1) f,
    if_pos (Finset.mem_univ _)]

theorem applyDEC4_matrix (v : QState 4) (b : Fin 4 → Bool) :
    applyDEC4 v b = ∑ j, (DECmatrix (idx4 b) j : ℂ) * v (set4 j) := by
  rw [sum_DECmatrix_mul]
  rfl

theorem checkFinalState_eq_allZero : checkFinalState = allZero := by
  funext b
  show allZero (flipBit (3 : Fin 4) (set4 (idx4 b + 1))) = allZero b
  have key : ∀ b : Fin 4 → Bool,
      (flipBit (3 : Fin 4) (set4 (idx4 b + 1)) = fun _ => false) ↔ (b = fun _ => false) := by
    decide
  rw [allZero]
  exact if_congr (key b) rfl rfl

/-- C2: decrementer(4) sends the standard basis vector of index 1 to the one of
index 0; accordingly the check kernel (|0000>, then x(qubits[3]), then DEC)
ends in exactly the basis state |0000>, so under noiseless simulation the
outcome 0000 has probability 1 and is the strict argmax of the measurement
distribution, making every shot and most_probable() return 0000. -/
theorem DEC_maps_one_to_zero :
    (decrementer 4).mulVec (basisVec 1) = basisVec 0 ∧
    checkFinalState = allZero ∧
    measProb4 checkFinalState (fun _ => false) = 1 ∧
    ∀ b, b ≠ (fun _ => false) →
      measProb4 checkFinalState b < measProb4 checkFinalState (fun _ => false) := by
  have hmul : (decrementer 4).mulVec (basisVec 1) = basisVec 0 := by
    rw [decrementer_mulVec_basis]
    congr 1
  have hprob : ∀ b, measProb4 checkFinalState b
      = if b = (fun _ => false) then 1 else 0 := by
    intro b
    rw [measProb4, checkFinalState_eq_allZero, allZero]
    split
    · simp
    · simp
  refine ⟨hmul, checkFinalState_eq_allZero, ?_, ?_⟩
  · rw [hprob]
    simp
  · intro b hb
    rw [hprob, hprob, if_neg hb, if_pos rfl]
    norm_num

theorem initial_position_apply_allZero :
    initial_position (n := 4) allZero
      = fun b => if b = b0010 ∨ b = b0011 then ((Real.sqrt 2 : ℂ))⁻¹ else 0 := by
  have hc2 : ((2 : ℕ) : Fin 4) = (2 : Fin 4) := by decide
  have hc3 : ((3 : ℕ) : Fin 4) = (3 : Fin 4) := by decide
  have hstep : initial_position (n := 4) allZero
      = applyH (3 : Fin 4) (applyX (2 : Fin 4) allZero) := by
    show applyH ((3 : ℕ) : Fin 4) (applyX ((2 : ℕ) : Fin 4) allZero) = _
    rw [hc2, hc3]
  have hx : applyX (2 : Fin 4) allZero = fun y => if y = b0010 then (1 : ℂ) else 0 := by
    funext y
    show allZero (flipBit (2 : Fin 4) y) = _
    have key : ∀ y : Fin 4 → Bool,
        (flipBit (2 : Fin 4) y = fun _ => false) ↔ (y = b0010) := by decide
    rw [allZero]
    exact if_congr (key y) rfl rfl
  rw [hstep, hx]
  funext b
  by_cases h2 : b = b0010
  · subst h2
    have e1 : Function.update b0010 (3 : Fin 4) false = b0010 := by decide
    have e2 : Function.update b0010 (3 : Fin 4) true = b0011 := by decide
    have e3 : b0010 (3 : Fin 4) = false := by decide
    have hne : b0011 ≠ b0010 := by decide
    simp only [applyH, e1, e2, e3, Bool.cond_false]
    simp [hne]
  · by_cases h3 : b = b0011
    · subst h3
      have e1 : Function.update b0011 (3 : Fin 4) false = b0010 := by decide
      have e2 : Function.update b0011 (3 : Fin 4) true = b0011 := by decide
      have e3 : b0011 (3 : Fin 4) = true := by decide
      have hne : b0011 ≠ b0010 := by decide
      simp only [applyH, e1, e2, e3, Bool.cond_true]
      simp [hne]
    · have hne : Function.update b (3 : Fin 4) false ≠ b0010 ∧
          Function.update b (3 : Fin 4) true ≠ b0010 := by
        revert h2 h3
        revert b
        decide
      simp only [applyH]
      rw [if_neg hne.1, if_neg hne.2, if_neg (fun hor => hor.elim h2 h3)]
      simp

/-- C4: initial_position consists of exactly the two gates x(qubits[2]) and
h(qubits[3]), and from |0000> it produces the equal superposition of |0010>
and |0011>: both amplitudes are 1/sqrt 2 and every other amplitude is 0. -/
theorem initial_position_superposition :
    initial_position_ops.length = 2 ∧
    initial_position_ops = [SQGate.gX 2, SQGate.gH 3] ∧
    initial_position (n := 4) allZero b0010 = ((Real.sqrt 2 : ℂ))⁻¹ ∧
    initial_position (n := 4) allZero b0011 = ((Real.sqrt 2 : ℂ))⁻¹ ∧
    ∀ b, b ≠ b0010 → b ≠ b0011 → initial_position (n := 4) allZero b = 0 := by
  refine ⟨rfl, rfl, ?_, ?_, ?_⟩
  · rw [initial_position_apply_allZero]
    exact if_pos (Or.inl rfl)
  · rw [initial_position_apply_allZero]
    exact if_pos (Or.inr rfl)
  · intro b hb2 hb3
    rw [initial_position_apply_allZero]
    exact if_neg (fun hor => hor.elim hb2 hb3)

theorem norm2_applyDECctrl (v : QState 6) : norm2 (applyDECctrl v) = norm2 v :=
  norm2_comp_equiv decCtrlEquiv v

theorem norm2_applyINCctrl (v : QState 6) : norm2 (applyINCctrl v) = norm2 v :=
  norm2_comp_equiv decCtrlEquiv.symm v

theorem norm2_initial_position {n : ℕ} [NeZero n] (v : QState n) :
    norm2 (initial_position v) = norm2 v := by
  show norm2 (applyH ((3 : ℕ) : Fin n) (applyX ((2 : ℕ) : Fin n) v)) = norm2 v
  rw [norm2_applyH, norm2_applyX]

/-- C3: the operator DTQW_one_step applies to the joint walker-coin-endpoint
state before the final measurement preserves total probability for every input
state. The kernels no_INC_at_right_endpoint, no_DEC_at_left_endpoint and
reset_coin_and_endpoint are not in these sources and are modelled from the
spec as arbitrary probability-preserving transformations (hypotheses hR, hL,
hreset); every explicit gate of the kernel is proved probability-preserving. -/
theorem DTQW_step_norm_preserving (env : WalkEnv)
    (hR : ∀ v, norm2 (env.guardR v) = norm2 v)
    (hL : ∀ v, norm2 (env.guardL v) = norm2 v)
    (hreset : ∀ v, norm2 (env.resetCE v) = norm2 v)
    (v : QState 6) :
    norm2 (applyWalkOps env DTQW_ops.dropLast v) = norm2 v := by
  show norm2 (env.resetCE (applyX coinQubit (applyDECctrl (applyX coinQubit
    (env.guardL (env.resetCE (applyINCctrl (env.guardR (applyH coinQubit
      (applyH coinQubit (initial_position v))))))))))) = norm2 v
  rw [hreset, norm2_applyX, norm2_applyDECctrl, norm2_applyX, hL, hreset,
    norm2_applyINCctrl, hR, norm2_applyH, norm2_applyH, norm2_initial_position]

/-- Witness for C3: the unitarity theorem instantiated with the identity
interpretation of the modelled kernels and the all-zero input state. -/
theorem DTQW_step_norm_preserving_witness :
    norm2 (applyWalkOps idWalkEnv DTQW_ops.dropLast allZero) = norm2 (allZero (n := 6)) :=
  DTQW_step_norm_preserving idWalkEnv (fun _ => rfl) (fun _ => rfl) (fun _ => rfl) allZero

/-- C5: in DTQW_ops the coin operation comes before the right-boundary guard,
then the coin-controlled INC, the first reset, the left-boundary guard, the
coin-controlled DEC (wrapped in the two x gates), the second reset, and the
measurement of the walker qubits is the last operation of the kernel. -/
theorem DTQW_one_step_operation_order :
    List.indexOf WalkOp.coinOp DTQW_ops < List.indexOf WalkOp.guardRight DTQW_ops ∧
    List.indexOf WalkOp.guardRight DTQW_ops < List.indexOf WalkOp.incCtrl DTQW_ops ∧
    List.indexOf WalkOp.incCtrl DTQW_ops < List.indexOf WalkOp.resetA DTQW_ops ∧
    List.indexOf WalkOp.resetA DTQW_ops < List.indexOf WalkOp.guardLeft DTQW_ops ∧
    List.indexOf WalkOp.guardLeft DTQW_ops < List.indexOf WalkOp.xCoinA DTQW_ops ∧
    List.indexOf WalkOp.xCoinA DTQW_ops < List.indexOf WalkOp.decCtrl DTQW_ops ∧
    List.indexOf WalkOp.decCtrl DTQW_ops < List.indexOf WalkOp.xCoinB DTQW_ops ∧
    List.indexOf WalkOp.xCoinB DTQW_ops < List.indexOf WalkOp.resetB DTQW_ops ∧
    List.indexOf WalkOp.resetB DTQW_ops < List.indexOf WalkOp.mzWalker DTQW_ops ∧
    DTQW_ops.getLast? = some WalkOp.mzWalker := by
  decide

/-- C6: the recorded measurement strings of DTQW_one_step have one bit per
walker qubit (mz measures exactly the 4 walker qubits), and for every shot
count s, any sampled histogram over these 4-bit strings has counts summing to
exactly s. -/
theorem DTQW_sample_histogram_total :
    mzTargets.length = 4 ∧
    ∀ (s : ℕ) (shots : Fin s → WalkerOutcome),
      ∑ k : WalkerOutcome, histogram s shots k = s := by
  refine ⟨rfl, ?_⟩
  intro s shots
  have h := Finset.card_eq_sum_card_fiberwise
    (f := shots) (s := Finset.univ) (t := Finset.univ)
    (fun t _ => Finset.mem_univ (shots t))
  rw [Finset.card_univ, Fintype.card_fin] at h
  exact h.symm

/-- C9: the sequence x(coin_qubit); DEC.ctrl(coin_qubit, walker_qubits);
x(coin_qubit) equals the DEC operation controlled on the coin being |0>: on
the coin |0> component it applies the matrix decrementer(4) to the walker
qubits, on the coin |1> component it is the identity, and it is diagonal in
the coin bit. -/
theorem coin_zero_controlled_DEC (v : QState 6) :
    applyX coinQubit (applyDECctrl (applyX coinQubit v))
      = fun b => if b coinQubit then v b
          else ∑ j, (DECmatrix (walkerIdx b) j : ℂ) * v (walkerSet b j) := by
  funext b
  have hkey : ∀ c : Fin 6 → Bool,
      flipBit coinQubit (gDecCtrl (flipBit coinQubit c))
        = if c coinQubit then c else walkerSet c (walkerIdx c + 1) := by decide
  show v (flipBit coinQubit (gDecCtrl (flipBit coinQubit b))) = _
  rw [hkey b, sum_DECmatrix_mul (walkerIdx b) (fun j => v (walkerSet b j))]
  exact apply_ite v _ _ _

/-- C7 counterexample: the exercise cells are not independent; concretely, the
Exercise 2 cell reads num_qubits, a name it has not bound itself, and
num_qubits is bound by the Exercise 3 cell. -/
theorem exercise_cells_not_independent :
    PyName.numQubits ∈ cellNeeds (cellsArr 1) ∧
    PyName.numQubits ∈ cellBinds (cellsArr 2) ∧
    ¬ exerciseCellsIndependent :=
  ⟨by decide, by decide, fun h =>
    h.1 1 2 (by decide) PyName.numQubits (by decide) (by decide)⟩

/-- C7 amended: the Exercise 1 cell reads no name bound by another cell and
evaluates on its own, but Exercise 2 reads num_qubits (bound only by
Exercise 3) and fails alone with num_qubits unbound, and Exercise 3 reads
initial_position (bound by Exercise 1) and DEC (bound by Exercise 2) and fails
alone with initial_position unbound; these are the only cross-cell reads. -/
theorem exercise_cells_dependencies :
    (∀ nm ∈ cellNeeds (cellsArr 0), ∀ j : Fin 3, j ≠ 0 → nm ∉ cellBinds (cellsArr j)) ∧
    runOk (runStmtsFrom frameworkEnv 0 exercise1) = true ∧
    PyName.numQubits ∈ cellNeeds (cellsArr 1) ∧
    PyName.numQubits ∈ cellBinds (cellsArr 2) ∧
    (∀ nm ∈ cellNeeds (cellsArr 1), ∀ j : Fin 3, j ≠ 1 →
      nm ∈ cellBinds (cellsArr j) → nm = PyName.numQubits) ∧
    runStmtsFrom frameworkEnv 0 exercise2 = Except.error (1, PyName.numQubits) ∧
    PyName.initialPosition ∈ cellNeeds (cellsArr 2) ∧
    PyName.initialPosition ∈ cellBinds (cellsArr 0) ∧
    PyName.DEC ∈ cellNeeds (cellsArr 2) ∧
    PyName.DEC ∈ cellBinds (cellsArr 1) ∧
    (∀ nm ∈ cellNeeds (cellsArr 2), ∀ j : Fin 3, j ≠ 2 →
      nm ∈ cellBinds (cellsArr j) →
      nm = PyName.initialPosition ∨ nm = PyName.DEC) ∧
    runStmtsFrom frameworkEnv 0 exercise3 = Except.error (1, PyName.initialPosition) := by
  refine ⟨by decide, rfl, by decide, by decide, by decide, rfl, by decide, by decide,
    by decide, by decide, by decide, rfl⟩

/-- C8: running the cells top to bottom from the framework bindings, Exercise 1
succeeds, and evaluation stops in the Exercise 2 cell (cell index 1) at its
statement index 1 - the cudaq.register_operation("DEC", decrementer(num_qubits))
call, whose reads and binds are spelled out - with num_qubits unbound, since
num_qubits is bound only by a statement of the later Exercise 3 cell; hence the
DEC registration and the decrementer check never complete. -/
theorem run_all_unbound_num_qubits :
    runNotebook = Except.error (1, 1, PyName.numQubits) ∧
    (exercise2.get ⟨1, by decide⟩).reads
      = [PyName.cudaq, PyName.np, PyName.decrementer, PyName.numQubits] ∧
    (exercise2.get ⟨1, by decide⟩).binds = [PyName.DEC] ∧
    (∀ st ∈ exercise1 ++ exercise2, PyName.numQubits ∉ st.binds) ∧
    (∃ st ∈ exercise3, PyName.numQubits ∈ st.binds) := by
  refine ⟨rfl, rfl, rfl, by decide, by decide⟩
